import Mathlib

/-
Verification development for the AdultBlocker repository.

The program text is shallowly embedded: file contents and Python strings are
modelled as `List Char`, Python string primitives (`in`, `split(sep, 1)`,
`strip()`, `splitlines()`, `startswith`, `endswith`) are modelled as explicit
recursive functions on `List Char`, wall-clock timestamps (`time.time()`)
are passed explicitly as rationals, and fallible operations (Python code
paths that can raise) return `Option`.  Line splitting is modelled on the
newline character, which is the only separator the program itself writes.
-/

namespace AdultBlocker

/-- File contents and Python strings are modelled as lists of characters. -/
abbrev Str := List Char

/-- Conversion of a Lean string literal into the model. -/
def str (s : String) : Str := s.toList

/-! ## Python string primitives -/

/-- Model of Python `s.split(sep, 1)` restricted to the case where the
separator occurs: returns `some (before, after)` for the first occurrence of
`sep` in `s`, `none` when `sep` does not occur in `s`. -/
def splitOnce (sep : Str) : Str → Option (Str × Str)
  | [] => if sep.isPrefixOf [] then some ([], []) else none
  | c :: rest =>
    if sep.isPrefixOf (c :: rest) then some ([], (c :: rest).drop sep.length)
    else
      match splitOnce sep rest with
      | some (a, b) => some (c :: a, b)
      | none => none

/-- Model of the Python substring test `sep in s`. -/
def pyIn (sep s : Str) : Bool := (splitOnce sep s).isSome

/-- Model of Python `s.split(sep, 1)` as the list Python returns:
two pieces when the separator occurs, one piece otherwise. -/
def pySplit1 (sep s : Str) : List Str :=
  match splitOnce sep s with
  | some (a, b) => [a, b]
  | none => [s]

/-- The ASCII whitespace characters stripped by Python `str.strip()`. -/
def isSpace (c : Char) : Bool :=
  c = ' ' || c = '\t' || c = '\n' || c = '\r' || c = '\x0b' || c = '\x0c'

/-- Model of Python `s.strip()`: drop whitespace from both ends. -/
def pyStrip (s : Str) : Str :=
  ((s.dropWhile isSpace).reverse.dropWhile isSpace).reverse

/-- Auxiliary accumulator-based splitter behind `pySplitlines`. -/
def pySplitlinesAux (acc : Str) : Str → List Str
  | [] => if acc.isEmpty then [] else [acc.reverse]
  | c :: rest =>
    if c = '\n' then acc.reverse :: pySplitlinesAux [] rest
    else pySplitlinesAux (c :: acc) rest

/-- Model of Python `s.splitlines()` with the newline character as the line
boundary (the only line separator this program writes): no trailing empty
line is produced for a trailing newline, and the empty string yields no
lines at all. -/
def pySplitlines (s : Str) : List Str := pySplitlinesAux [] s

/-- Number of occurrences of a pattern in a string: the number of positions
at which `pat` is a prefix of the remaining suffix. -/
def countOcc (pat : Str) : Str → Nat
  | [] => if pat.isPrefixOf [] then 1 else 0
  | c :: rest => (if pat.isPrefixOf (c :: rest) then 1 else 0) + countOcc pat rest

/-- Strict lexicographic order on strings by character code point, the order
Python's `sorted` uses on `str`. -/
def lexLt : Str → Str → Bool
  | [], [] => false
  | [], _ :: _ => true
  | _ :: _, [] => false
  | a :: as, b :: bs => if a < b then true else if b < a then false else lexLt as bs

/-- Insertion into a strictly sorted list, skipping an element already
present: used to model Python's `sorted(set(...))`. -/
def insertSorted (x : Str) : List Str → List Str
  | [] => [x]
  | y :: ys =>
    if x = y then y :: ys
    else if lexLt x y then x :: y :: ys
    else y :: insertSorted x ys

/-- Sorting with deduplication: the model of `sorted(<set contents>)`. -/
def sortDedup (l : List Str) : List Str := l.foldr insertSorted []

/-! ## HostsManager (src/app/hosts_manager.py) -/

/-- The literal `BLOCK_START` marker from hosts_manager.py. -/
def BLOCK_START : Str := str "# AdultBlocker START"

/-- The literal `BLOCK_END` marker from hosts_manager.py. -/
def BLOCK_END : Str := str "# AdultBlocker END"

/-- `HostsManager._expand_domains`: strip every entry, drop the ones that
become empty, add the `www.` variant of every surviving domain that does not
already start with `www.`, and return the set sorted.  The Python original
accumulates into a `set` and applies `sorted`; collecting the contributions
and then sorting with deduplication is the same function. -/
def _expand_domains (domains : List Str) : List Str :=
  sortDedup (domains.flatMap fun d =>
    let s := pyStrip d
    if s.isEmpty then []
    else if (str "www.").isPrefixOf s then [s]
    else [s, str "www." ++ s])

/-- The substring of the hosts file between the first `BLOCK_START` and the
first following `BLOCK_END`, as extracted by
`content.split(BLOCK_START, 1)[1].split(BLOCK_END, 1)[0]` in
`HostsManager.is_block_active` (meaningful when both markers are present,
which is the only situation in which the code evaluates it). -/
def blockSection (content : Str) : Str :=
  ((pySplit1 BLOCK_END (((pySplit1 BLOCK_START content).getD 1 []))).getD 0 [])

/-- `HostsManager.is_block_active`: false when either marker is absent;
otherwise every expanded domain must have some line in the section between
the markers whose stripped form ends with a space followed by that domain. -/
def is_block_active (domains : List Str) (content : Str) : Bool :=
  if pyIn BLOCK_START content && pyIn BLOCK_END content then
    (_expand_domains domains).all fun d =>
      (pySplitlines (blockSection content)).any fun line =>
        (' ' :: d).isSuffixOf (pyStrip line)
  else false

/-- The two explanatory comment lines `apply_block` writes into the block. -/
def comment1 : Str :=
  str "# The following entries were added by AdultBlocker to intentionally block domains."

/-- Second comment line of the block. -/
def comment2 : Str :=
  str "# Remove this section to unblock (requires admin/root)."

/-- The `lines` list built by `HostsManager.apply_block`. -/
def blockLines (domains : List Str) : List Str :=
  [BLOCK_START, comment1, comment2] ++
    ((_expand_domains domains).flatMap fun d =>
      [str "127.0.0.1 " ++ d, str "::1 " ++ d]) ++
    [BLOCK_END]

/-- Model of Python `"\n".join(lines)`. -/
def joinNL : List Str → Str
  | [] => []
  | [x] => x
  | x :: y :: xs => x ++ '\n' :: joinNL (y :: xs)

/-- The `block` string of `HostsManager.apply_block`:
`"\n".join(lines) + "\n"`. -/
def blockFor (domains : List Str) : Str := joinNL (blockLines domains) ++ ['\n']

/-- The lines of the block strictly between the two markers, as written by
`apply_block`: an empty line artifact of the newline that follows the start
marker, the two comments, and the two address lines per expanded domain. -/
def midLines (domains : List Str) : List Str :=
  [[], comment1, comment2] ++
    ((_expand_domains domains).flatMap fun d =>
      [str "127.0.0.1 " ++ d, str "::1 " ++ d])

/-- The raw text between the start marker and the end marker of a block
freshly written by `apply_block`. -/
def midFor (domains : List Str) : Str :=
  (midLines domains).flatMap fun l => l ++ ['\n']

/-- The splice shared by `apply_block` and `remove_block`: when both markers
occur in the content, remove everything from the first `BLOCK_START` through
the first `BLOCK_END` that follows it.  The guard tests occurrence of the
end marker anywhere in the content, but the unpacking
`_, after = rest.split(BLOCK_END, 1)` needs the end marker to occur after
the first start marker; when it does not, Python raises `ValueError`,
modelled by `none`. -/
def spliceMarkers (content : Str) : Option Str :=
  if pyIn BLOCK_START content && pyIn BLOCK_END content then
    match splitOnce BLOCK_START content with
    | some (before, rest) =>
      match splitOnce BLOCK_END rest with
      | some (_, after) => some (before ++ after)
      | none => none
    | none => none
  else some content

/-- The `if content and not content.endswith("\n"): content += "\n"` step of
`apply_block`. -/
def ensureNL (content : Str) : Str :=
  if !content.isEmpty && !(['\n'].isSuffixOf content) then content ++ ['\n']
  else content

/-- `HostsManager.apply_block` on a given current hosts-file content,
returning the content written back (`none` on the `ValueError` path). -/
def apply_block (domains : List Str) (content : Str) : Option Str :=
  (spliceMarkers content).map fun c => ensureNL c ++ blockFor domains

/-- `HostsManager.remove_block` on a given current hosts-file content:
when both markers occur, splice the marked region out, otherwise leave the
content unchanged (`none` on the `ValueError` path). -/
def remove_block (content : Str) : Option Str := spliceMarkers content

/-! ## StateStore (src/app/state_store.py) -/

/-- The built-in `DEFAULT_DOMAINS` fallback list from state_store.py. -/
def DEFAULT_DOMAINS : List Str := [str "exampleadult.com", str "www.exampleadult.com"]

/-- The persisted record: domain list, optional uninstall-timer start
timestamp (seconds since the epoch, modelled as a rational), and the
onboarding flag. -/
structure PersistedState where
  blocked_domains : List Str
  pending_uninstall_started_at : Option ℚ
  onboarding_completed : Bool
deriving DecidableEq, Repr

/-- The default record written on reset. -/
def defaultState : PersistedState :=
  { blocked_domains := DEFAULT_DOMAINS
    pending_uninstall_started_at := none
    onboarding_completed := false }

/-- A successfully parsed JSON record, field by field; `none` in a field
means the key is missing from the file, in which case `load` fills the
default via `setdefault`. -/
structure RawState where
  blocked_domains : Option (List Str)
  pending_uninstall_started_at : Option (Option ℚ)
  onboarding_completed : Option Bool

/-- `StateStore.load` as a function of the outcome of reading and parsing
the backing file: `none` models any read or parse failure (the Python code
catches every exception).  Returns the state handed to the caller together
with the content written back to the store (`some` exactly on the reset
path). -/
def load (readOutcome : Option RawState) : PersistedState × Option PersistedState :=
  match readOutcome with
  | some raw =>
    ({ blocked_domains := raw.blocked_domains.getD DEFAULT_DOMAINS
       pending_uninstall_started_at := raw.pending_uninstall_started_at.getD none
       onboarding_completed := raw.onboarding_completed.getD false }, none)
  | none => (defaultState, some defaultState)

/-- The backing storage seen by `StateStore._write_state`: the real
`state.json` content and the optional `state.tmp` content sitting next to
it. -/
structure StateFS where
  real : Str
  tmp : Option Str
deriving DecidableEq

/-- The points at which a crash or power loss can interrupt
`StateStore._write_state` (`tmp.write_text(...)` followed by the atomic
`tmp.replace(state_path)`). -/
inductive SavePhase
  | beforeTmpWrite
  | duringTmpWrite
  | afterTmpWrite
  | completed
deriving DecidableEq

/-- `StateStore._write_state` observed at an interruption point: `payload`
is the serialized new state, `garbage` is whatever truncated bytes a
half-finished temporary-file write left behind.  The rename is atomic, so
`real` switches from the old content to `payload` in one step. -/
def _write_state (fs : StateFS) (payload garbage : Str) : SavePhase → StateFS
  | .beforeTmpWrite => fs
  | .duringTmpWrite => { fs with tmp := some garbage }
  | .afterTmpWrite => { fs with tmp := some payload }
  | .completed => { real := payload, tmp := none }

/-- What a subsequent `load` reads: only the real `state.json` path. -/
def readStateFile (fs : StateFS) : Str := fs.real

/-- First-run initialization from `StateStore.__init__`: when no backing
file exists, write a fresh record whose domain list is the starter preset
when one was loaded (`starter if starter else DEFAULT_DOMAINS`, where an
empty starter list is falsy) and `DEFAULT_DOMAINS` otherwise. -/
def initState (starter : Option (List Str)) : PersistedState :=
  { blocked_domains :=
      match starter with
      | some s => if s.isEmpty then DEFAULT_DOMAINS else s
      | none => DEFAULT_DOMAINS
    pending_uninstall_started_at := none
    onboarding_completed := false }

/-- `StateStore.set_domains`: store the stripped entries whose stripped
form is non-empty — `[d.strip() for d in domains if d.strip()]`. -/
def set_domains (st : PersistedState) (domains : List Str) : PersistedState :=
  { st with blocked_domains :=
      (domains.filter fun d => !(pyStrip d).isEmpty).map pyStrip }

/-- `StateStore.start_uninstall_timer` at the current wall-clock time. -/
def start_uninstall_timer (st : PersistedState) (now : ℚ) : PersistedState :=
  { st with pending_uninstall_started_at := some now }

/-- `StateStore.cancel_uninstall_timer`. -/
def cancel_uninstall_timer (st : PersistedState) : PersistedState :=
  { st with pending_uninstall_started_at := none }

/-- `StateStore.get_uninstall_started_at` (the stored JSON value is typed
in the model, so the `isinstance` coercion is the identity). -/
def get_uninstall_started_at (st : PersistedState) : Option ℚ :=
  st.pending_uninstall_started_at

/-- `StateStore.uninstall_ready`: false when no timer start is stored,
otherwise `time.time() - started >= delay_seconds`. -/
def uninstall_ready (st : PersistedState) (now delay_seconds : ℚ) : Bool :=
  match get_uninstall_started_at st with
  | none => false
  | some started => decide (now - started ≥ delay_seconds)

/-! ## UI handlers over the core state (src/app/ui.py)

Only the state-transition content of the handlers is embedded: message
boxes are dropped, dialog answers become boolean parameters, and the
outcome of the guarded hosts-file operation (which can raise
`PermissionError` or any other exception) becomes an explicit parameter. -/

/-- The fixed `UNINSTALL_DELAY_SECONDS = 15 * 60` constant from ui.py. -/
def UNINSTALL_DELAY_SECONDS : ℚ := 15 * 60

/-- Outcome of the guarded hosts-file operation inside a `try` block. -/
inductive HostsOutcome
  | success
  | permissionError
  | otherError
deriving DecidableEq

/-- `AdultBlockerWindow._require_timer_ready`: true when the timer is
ready; otherwise, when no timer is running and the user answers Yes to the
prompt, start the timer — in every non-ready case the handler returns
false.  Returns the flag with the possibly updated state. -/
def _require_timer_ready (st : PersistedState) (now : ℚ) (startAnswer : Bool) :
    Bool × PersistedState :=
  if uninstall_ready st now UNINSTALL_DELAY_SECONDS then (true, st)
  else
    match get_uninstall_started_at st with
    | none => if startAnswer then (false, start_uninstall_timer st now) else (false, st)
    | some _ => (false, st)

/-- `AdultBlockerWindow._proceed_uninstall`: refuse unless the timer is
ready; then run `remove_block` and cancel the timer only when that call
returned normally — on `PermissionError` or any other exception the
`cancel_uninstall_timer` line is never reached. -/
def _proceed_uninstall (st : PersistedState) (now : ℚ) (outcome : HostsOutcome) :
    PersistedState :=
  if uninstall_ready st now UNINSTALL_DELAY_SECONDS then
    match outcome with
    | .success => cancel_uninstall_timer st
    | .permissionError => st
    | .otherError => st
  else st

/-- `AdultBlockerWindow._uninstall_app`: gate through
`_require_timer_ready`, then a confirmation dialog, then `remove_block`
followed by `cancel_uninstall_timer` inside the same `try` — the cancel
again happens only when the hosts operation succeeded. -/
def _uninstall_app (st : PersistedState) (now : ℚ)
    (startAnswer confirmAnswer : Bool) (outcome : HostsOutcome) : PersistedState :=
  let gate := _require_timer_ready st now startAnswer
  if gate.1 then
    if confirmAnswer then
      match outcome with
      | .success => cancel_uninstall_timer gate.2
      | .permissionError => gate.2
      | .otherError => gate.2
    else gate.2
  else gate.2

/-- `AdultBlockerWindow._edit_domains`: gate through
`_require_timer_ready`; when the dialog is accepted, store the edited list
via `set_domains`.  No branch of this handler touches the uninstall
timer. -/
def _edit_domains (st : PersistedState) (now : ℚ)
    (startAnswer accepted : Bool) (newDomains : List Str) : PersistedState :=
  let gate := _require_timer_ready st now startAnswer
  if gate.1 then
    if accepted then set_domains gate.2 newDomains else gate.2
  else gate.2

/-! ## Theorems: persistent state store and timer gating -/

/-- C7: `load` never propagates a read or parse failure: on any failing
read outcome it returns the default state (built-in fallback domain list,
no pending timer, onboarding incomplete) and writes that same default back
to the backing store instead of raising. -/
theorem load_resets_to_default_on_failure :
    load none = (defaultState, some defaultState) ∧
    defaultState.blocked_domains = DEFAULT_DOMAINS ∧
    defaultState.pending_uninstall_started_at = none ∧
    defaultState.onboarding_completed = false ∧
    DEFAULT_DOMAINS ≠ [] := by
  refine ⟨rfl, rfl, rfl, rfl, by decide⟩

/-- C8: `_write_state` is atomic with respect to interruption: at every
interruption point of the write-temporary-then-rename sequence, the real
state path holds either the complete old content or the complete new
payload, never a truncated or mixed record. -/
theorem write_state_atomic (fs : StateFS) (payload garbage : Str) (phase : SavePhase) :
    readStateFile (_write_state fs payload garbage phase) = readStateFile fs ∨
    readStateFile (_write_state fs payload garbage phase) = payload := by
  cases phase <;> simp [_write_state, readStateFile]

/-- C5: `uninstall_ready` is false whenever no start timestamp is stored
(in particular immediately after `cancel_uninstall_timer`), and with a
stored start it is true exactly when the elapsed time `now - started` is at
least the delay — true at exactly the delay and beyond, false strictly
before. -/
theorem uninstall_ready_boundary (st : PersistedState) (now delay : ℚ) :
    (st.pending_uninstall_started_at = none → uninstall_ready st now delay = false) ∧
    uninstall_ready (cancel_uninstall_timer st) now delay = false ∧
    (∀ s, st.pending_uninstall_started_at = some s →
      (uninstall_ready st now delay = true ↔ delay ≤ now - s)) := by
  refine ⟨fun h => ?_, ?_, fun s h => ?_⟩
  · simp [uninstall_ready, get_uninstall_started_at, h]
  · simp [uninstall_ready, get_uninstall_started_at, cancel_uninstall_timer]
  · simp [uninstall_ready, get_uninstall_started_at, h, ge_iff_le]

/-- C5 witness: concrete boundary check at start time 0 with a 900 second
delay — ready exactly at 900, not at 899, and not after cancelling. -/
theorem uninstall_ready_boundary_witness :
    uninstall_ready ⟨DEFAULT_DOMAINS, some 0, false⟩ 900 900 = true ∧
    uninstall_ready ⟨DEFAULT_DOMAINS, some 0, false⟩ 899 900 = false ∧
    uninstall_ready (cancel_uninstall_timer ⟨DEFAULT_DOMAINS, some 0, false⟩) 900 900 = false := by
  have h900 := uninstall_ready_boundary ⟨DEFAULT_DOMAINS, some 0, false⟩ 900 900
  have h899 := uninstall_ready_boundary ⟨DEFAULT_DOMAINS, some 0, false⟩ 899 900
  refine ⟨(h900.2.2 0 rfl).mpr (by norm_num), ?_, h900.2.1⟩
  have hlt : ¬ (900 : ℚ) ≤ 899 - 0 := by norm_num
  cases hb : uninstall_ready ⟨DEFAULT_DOMAINS, some 0, false⟩ 899 900
  · rfl
  · exact absurd ((h899.2.2 0 rfl).mp hb) hlt

/-- C6 counterexample: from the Ready state (timer started at 0, checked at
900 seconds with the fixed 15-minute delay), a failing hosts-file operation
in `_proceed_uninstall` leaves the timer set, and `_edit_domains` leaves
the timer set even when it succeeds — the claim that the timer is cancelled
regardless of the guarded operation's outcome is false. -/
theorem sensitive_op_failure_keeps_timer :
    uninstall_ready ⟨DEFAULT_DOMAINS, some 0, false⟩ 900 UNINSTALL_DELAY_SECONDS = true ∧
    (_proceed_uninstall ⟨DEFAULT_DOMAINS, some 0, false⟩ 900
      HostsOutcome.permissionError).pending_uninstall_started_at = some 0 ∧
    (_edit_domains ⟨DEFAULT_DOMAINS, some 0, false⟩ 900 true true
      [str "a.com"]).pending_uninstall_started_at = some 0 := by
  have hr : uninstall_ready ⟨DEFAULT_DOMAINS, some 0, false⟩ 900 UNINSTALL_DELAY_SECONDS = true := by
    simp [uninstall_ready, get_uninstall_started_at, UNINSTALL_DELAY_SECONDS]
    norm_num
  refine ⟨hr, ?_, ?_⟩
  · simp [_proceed_uninstall, hr]
  · simp [_edit_domains, _require_timer_ready, hr, set_domains]

/-- C6 amended: from the Ready state, `_proceed_uninstall` and
`_uninstall_app` cancel the uninstall timer only when the guarded
hosts-file operation succeeds; when it raises (`PermissionError` or any
other exception) the state is left unchanged with the timer still set, and
`_edit_domains` never touches the timer at all. -/
theorem sensitive_ops_cancel_timer_only_on_success
    (st : PersistedState) (now : ℚ) (outcome : HostsOutcome)
    (sa acc : Bool) (nds : List Str)
    (hready : uninstall_ready st now UNINSTALL_DELAY_SECONDS = true) :
    (_proceed_uninstall st now HostsOutcome.success).pending_uninstall_started_at = none ∧
    (outcome ≠ HostsOutcome.success → _proceed_uninstall st now outcome = st) ∧
    (_uninstall_app st now sa true HostsOutcome.success).pending_uninstall_started_at = none ∧
    (outcome ≠ HostsOutcome.success → _uninstall_app st now sa true outcome = st) ∧
    (_edit_domains st now sa acc nds).pending_uninstall_started_at =
      st.pending_uninstall_started_at := by
  refine ⟨?_, fun h => ?_, ?_, fun h => ?_, ?_⟩
  · simp [_proceed_uninstall, hready, cancel_uninstall_timer]
  · cases outcome <;> simp [_proceed_uninstall, hready] <;> simp at h
  · simp [_uninstall_app, _require_timer_ready, hready, cancel_uninstall_timer]
  · cases outcome <;> simp [_uninstall_app, _require_timer_ready, hready] <;> simp at h
  · cases acc <;> simp [_edit_domains, _require_timer_ready, hready, set_domains]

/-- C6 witness: the amended theorem at the concrete Ready state. -/
theorem sensitive_ops_cancel_timer_only_on_success_witness :
    (_proceed_uninstall ⟨DEFAULT_DOMAINS, some 0, false⟩ 900
      HostsOutcome.success).pending_uninstall_started_at = none ∧
    (HostsOutcome.otherError ≠ HostsOutcome.success →
      _proceed_uninstall ⟨DEFAULT_DOMAINS, some 0, false⟩ 900 HostsOutcome.otherError =
        ⟨DEFAULT_DOMAINS, some 0, false⟩) ∧
    (_uninstall_app ⟨DEFAULT_DOMAINS, some 0, false⟩ 900 false true
      HostsOutcome.success).pending_uninstall_started_at = none ∧
    (HostsOutcome.otherError ≠ HostsOutcome.success →
      _uninstall_app ⟨DEFAULT_DOMAINS, some 0, false⟩ 900 false true HostsOutcome.otherError =
        ⟨DEFAULT_DOMAINS, some 0, false⟩) ∧
    (_edit_domains ⟨DEFAULT_DOMAINS, some 0, false⟩ 900 false true
      [str "b.com"]).pending_uninstall_started_at =
      (⟨DEFAULT_DOMAINS, some 0, false⟩ : PersistedState).pending_uninstall_started_at :=
  sensitive_ops_cancel_timer_only_on_success ⟨DEFAULT_DOMAINS, some 0, false⟩ 900
    HostsOutcome.otherError false true [str "b.com"]
    (by simp [uninstall_ready, get_uninstall_started_at, UNINSTALL_DELAY_SECONDS]; norm_num)

/-- C9 counterexample: after first-run initialization, a single
`set_domains` call whose entries are all whitespace stores an empty
`blocked_domains` — no fallback is applied on write, so the non-emptiness
invariant is false. -/
theorem set_domains_can_store_empty_list :
    (set_domains (initState none) [str "   "]).blocked_domains = [] ∧
    (initState none).blocked_domains ≠ [] := by
  constructor
  · simp [set_domains, initState, pyStrip, str, isSpace, List.dropWhile]
  · simp [initState, DEFAULT_DOMAINS]

/-- C9 amended: first-run initialization always produces a non-empty
`blocked_domains` (starter list when present and non-empty, else the
built-in default), but `set_domains` stores the stripped-and-filtered
input with no fallback, so the stored list is empty exactly when every
input entry strips to the empty string. -/
theorem init_nonempty_and_set_domains_filter
    (starter : Option (List Str)) (st : PersistedState) (ds : List Str) :
    (initState starter).blocked_domains ≠ [] ∧
    ((set_domains st ds).blocked_domains = [] ↔ ∀ d ∈ ds, pyStrip d = []) := by
  constructor
  · cases starter with
    | none => simp [initState, DEFAULT_DOMAINS]
    | some s =>
      by_cases hs : s.isEmpty
      · simp [initState, hs, DEFAULT_DOMAINS]
      · simp only [initState, hs, if_false]
        simpa [List.isEmpty_iff] using hs
  · simp [set_domains, List.map_eq_nil_iff, List.filter_eq_nil_iff, List.isEmpty_iff]

/-! ## Theorems: domain expansion -/

theorem lexLt_trans : ∀ {a b c : Str}, lexLt a b = true → lexLt b c = true → lexLt a c = true
  | [], [], _, h, _ => by simp [lexLt] at h
  | [], _ :: _, [], _, h => by simp [lexLt] at h
  | [], _ :: _, _ :: _, _, _ => by simp [lexLt]
  | _ :: _, [], _, h, _ => by simp [lexLt] at h
  | _ :: _, _ :: _, [], _, h => by simp [lexLt] at h
  | a :: as, b :: bs, c :: cs, h1, h2 => by
    simp only [lexLt] at h1 h2 ⊢
    rcases lt_trichotomy a b with hab | hab | hab
    · rcases lt_trichotomy b c with hbc | hbc | hbc
      · simp [lt_trans hab hbc]
      · subst hbc; simp [hab]
      · rw [if_neg (asymm hbc), if_pos hbc] at h2; exact absurd h2 (by simp)
    · subst hab
      rcases lt_trichotomy a c with hac | hac | hac
      · simp [hac]
      · subst hac
        rw [if_neg (lt_irrefl a), if_neg (lt_irrefl a)] at h1 h2 ⊢
        exact lexLt_trans h1 h2
      · rw [if_neg (asymm hac), if_pos hac] at h2; exact absurd h2 (by simp)
    · rw [if_neg (asymm hab), if_pos hab] at h1; exact absurd h1 (by simp)

theorem lexLt_total : ∀ {a b : Str}, a ≠ b → lexLt a b = true ∨ lexLt b a = true
  | [], [], h => absurd rfl h
  | [], _ :: _, _ => by simp [lexLt]
  | _ :: _, [], _ => by simp [lexLt]
  | a :: as, b :: bs, h => by
    rcases lt_trichotomy a b with hab | hab | hab
    · left; simp [lexLt, hab]
    · subst hab
      have hne : as ≠ bs := fun hh => h (by rw [hh])
      rcases lexLt_total hne with ht | ht
      · left; simp [lexLt, lt_irrefl, ht]
      · right; simp [lexLt, lt_irrefl, ht]
    · right; simp [lexLt, hab]

theorem mem_insertSorted {x y : Str} : ∀ {l : List Str},
    (y ∈ insertSorted x l ↔ y = x ∨ y ∈ l)
  | [] => by simp [insertSorted]
  | z :: zs => by
    simp only [insertSorted]
    split
    · rename_i hxz; subst hxz; simp only [List.mem_cons]; tauto
    · split
      · simp only [List.mem_cons]
      · simp only [List.mem_cons, mem_insertSorted]
        tauto

theorem pairwise_insertSorted {x : Str} : ∀ {l : List Str},
    l.Pairwise (fun a b => lexLt a b = true) →
    (insertSorted x l).Pairwise (fun a b => lexLt a b = true)
  | [], _ => by simp [insertSorted]
  | z :: zs, h => by
    rcases List.pairwise_cons.mp h with ⟨hz, hzs⟩
    simp only [insertSorted]
    split
    · exact h
    · rename_i hne
      split
      · rename_i hlt
        refine List.pairwise_cons.mpr ⟨?_, h⟩
        intro w hw
        rcases List.mem_cons.mp hw with rfl | hw
        · exact hlt
        · exact lexLt_trans hlt (hz w hw)
      · rename_i hnlt
        refine List.pairwise_cons.mpr ⟨?_, pairwise_insertSorted hzs⟩
        intro w hw
        rcases mem_insertSorted.mp hw with rfl | hw
        · rcases lexLt_total hne with hh | hh
          · exact absurd hh hnlt
          · exact hh
        · exact hz w hw

theorem mem_sortDedup {y : Str} : ∀ {l : List Str}, y ∈ sortDedup l ↔ y ∈ l
  | [] => by simp [sortDedup]
  | z :: zs => by
    show y ∈ insertSorted z (sortDedup zs) ↔ _
    rw [mem_insertSorted]
    simp [mem_sortDedup]

theorem pairwise_sortDedup : ∀ (l : List Str),
    (sortDedup l).Pairwise (fun a b => lexLt a b = true)
  | [] => by simp [sortDedup]
  | z :: zs => pairwise_insertSorted (pairwise_sortDedup zs)

/-- C4: `_expand_domains` is a pure total function whose result contains
exactly the stripped non-empty entries together with the `www.` variant of
each entry not already starting with `www.` (so no `www.www.` form is ever
introduced), strictly sorted in lexicographic code-point order — hence
deduplicated. -/
theorem expand_domains_spec (domains : List Str) :
    (∀ x, x ∈ _expand_domains domains ↔
      ∃ d ∈ domains, pyStrip d ≠ [] ∧
        (x = pyStrip d ∨
          ((str "www.").isPrefixOf (pyStrip d) = false ∧ x = str "www." ++ pyStrip d))) ∧
    (_expand_domains domains).Pairwise (fun a b => lexLt a b = true) := by
  constructor
  · intro x
    rw [_expand_domains, mem_sortDedup, List.mem_flatMap]
    constructor
    · rintro ⟨d, hd, hx⟩
      refine ⟨d, hd, ?_⟩
      by_cases he : (pyStrip d).isEmpty
      · simp [he] at hx
      · rw [if_neg he] at hx
        have hne : pyStrip d ≠ [] := by simpa [List.isEmpty_iff] using he
        by_cases hw : (str "www.").isPrefixOf (pyStrip d)
        · rw [if_pos hw] at hx
          simp only [List.mem_singleton] at hx
          exact ⟨hne, Or.inl hx⟩
        · rw [if_neg hw] at hx
          simp only [List.mem_cons, List.mem_singleton, List.not_mem_nil, or_false] at hx
          rcases hx with hx | hx
          · exact ⟨hne, Or.inl hx⟩
          · exact ⟨hne, Or.inr ⟨Bool.eq_false_iff.mpr hw, hx⟩⟩
    · rintro ⟨d, hd, hne, hx⟩
      refine ⟨d, hd, ?_⟩
      have he : (pyStrip d).isEmpty = false := by simpa [List.isEmpty_iff] using hne
      simp only [he, Bool.false_eq_true, if_false]
      rcases hx with rfl | ⟨hw, rfl⟩
      · split <;> simp
      · rw [if_neg (by simp [hw])]
        simp
  · exact pairwise_sortDedup _

/-- C3: `is_block_active` returns false when either marker is absent;
with both markers present it returns true exactly when every expanded
domain has some line in the section between the markers whose stripped
form ends with a space followed by that domain — one missing domain makes
it false. -/
theorem is_block_active_characterization (domains : List Str) (content : Str) :
    ((pyIn BLOCK_START content = false ∨ pyIn BLOCK_END content = false) →
      is_block_active domains content = false) ∧
    (pyIn BLOCK_START content = true → pyIn BLOCK_END content = true →
      (is_block_active domains content = true ↔
        ∀ d ∈ _expand_domains domains,
          ∃ line ∈ pySplitlines (blockSection content),
            (' ' :: d) <:+ pyStrip line)) := by
  constructor
  · rintro (h | h) <;> simp [is_block_active, h]
  · intro h1 h2
    simp [is_block_active, h1, h2, List.all_eq_true, List.any_eq_true]

/-- C10: when the expanded domain set is empty (every raw entry strips to
the empty string), `is_block_active` reduces to the presence test of the
two markers: the per-domain check is vacuous. -/
theorem is_block_active_vacuous_on_empty_expansion
    (domains : List Str) (content : Str)
    (h : ∀ d ∈ domains, pyStrip d = []) :
    is_block_active domains content =
      (pyIn BLOCK_START content && pyIn BLOCK_END content) := by
  have hexp : _expand_domains domains = [] := by
    rw [_expand_domains]
    have : (domains.flatMap fun d =>
        let s := pyStrip d
        if s.isEmpty then []
        else if (str "www.").isPrefixOf s then [s]
        else [s, str "www." ++ s]) = [] := by
      rw [List.flatMap_eq_nil_iff]
      intro d hd
      simp [h d hd]
    rw [this]
    rfl
  rw [is_block_active]
  cases hg : (pyIn BLOCK_START content && pyIn BLOCK_END content) <;>
    simp [hg, hexp]

/-! ## Theorems: occurrence counting and splitting

The lemmas below relate `splitOnce`, `pyIn` and `countOcc` and localize
occurrences of newline-free patterns across newline boundaries; they drive
the analysis of `apply_block` and `remove_block`. -/

theorem countOcc_nil {pat : Str} (h : pat ≠ []) : countOcc pat [] = 0 := by
  cases pat with
  | nil => exact absurd rfl h
  | cons c t => simp [countOcc, List.isPrefixOf]

theorem pyIn_false_iff {pat : Str} : ∀ {s : Str}, pyIn pat s = false ↔ countOcc pat s = 0
  | [] => by
    by_cases h : pat.isPrefixOf []
    · simp [pyIn, splitOnce, countOcc, h]
    · simp [pyIn, splitOnce, countOcc, h]
  | c :: rest => by
    by_cases h : pat.isPrefixOf (c :: rest)
    · simp [pyIn, splitOnce, countOcc, h]
    · rw [countOcc, if_neg h]
      rw [show pyIn pat (c :: rest) = pyIn pat rest by
        simp only [pyIn, splitOnce, if_neg h]
        cases hs : splitOnce pat rest with
        | none => simp
        | some p => cases p; simp]
      simpa using @pyIn_false_iff pat rest

theorem pyIn_of_pref {pat s : Str} (h : pat <+: s) : pyIn pat s = true := by
  cases s with
  | nil =>
    have : pat = [] := List.prefix_nil.mp h
    subst this
    simp [pyIn, splitOnce, List.isPrefixOf]
  | cons c rest =>
    have hb : pat.isPrefixOf (c :: rest) := List.isPrefixOf_iff_prefix.mpr h
    simp [pyIn, splitOnce, hb]

theorem isPrefixOf_congr {pat x y : Str} (h : pat <+: x ↔ pat <+: y) :
    pat.isPrefixOf x = pat.isPrefixOf y := by
  by_cases hx : pat <+: x
  · rw [(List.isPrefixOf_iff_prefix.mpr hx : pat.isPrefixOf x = true),
      (List.isPrefixOf_iff_prefix.mpr (h.mp hx) : pat.isPrefixOf y = true)]
  · rw [Bool.eq_false_iff.mpr (fun hb => hx (List.isPrefixOf_iff_prefix.mp hb)),
      Bool.eq_false_iff.mpr (fun hb => hx (h.mpr (List.isPrefixOf_iff_prefix.mp hb)))]

theorem countOcc_le_cons (pat : Str) (c : Char) (s : Str) :
    countOcc pat s ≤ countOcc pat (c :: s) :=
  Nat.le_add_left _ _

theorem countOcc_le_append (pat x b : Str) :
    countOcc pat b ≤ countOcc pat (x ++ b) := by
  induction x with
  | nil => exact Nat.le_refl _
  | cons c x ih => exact Nat.le_trans ih (countOcc_le_cons pat c (x ++ b))

theorem pyIn_append_left {pat b : Str} (x : Str) (h : pyIn pat b = true) :
    pyIn pat (x ++ b) = true := by
  cases hb : pyIn pat (x ++ b) with
  | true => rfl
  | false =>
    exfalso
    have h0 := pyIn_false_iff.mp hb
    have hle := countOcc_le_append pat x b
    rw [h0, Nat.le_zero] at hle
    rw [pyIn_false_iff.mpr hle] at h
    exact Bool.false_ne_true h

theorem pyIn_cons_false {pat : Str} {c : Char} {s : Str}
    (h : pyIn pat (c :: s) = false) : pyIn pat s = false := by
  rw [pyIn_false_iff] at h ⊢
  have := countOcc_le_cons pat c s
  omega

theorem prefix_of_append_nl {pat a : Str} (b : Str)
    (hnl : '\n' ∉ pat) (ha : ['\n'] <:+ a) :
    pat <+: a ++ b ↔ pat <+: a := by
  constructor
  · intro h
    rcases le_or_lt pat.length a.length with hle | hlt
    · exact List.prefix_of_prefix_length_le h (List.prefix_append a b) hle
    · exfalso
      have hap : a <+: pat :=
        List.prefix_of_prefix_length_le (List.prefix_append a b) h (Nat.le_of_lt hlt)
      exact hnl (hap.subset (ha.subset (List.mem_singleton_self _)))
  · intro h
    exact h.trans (List.prefix_append a b)

theorem prefix_of_snoc_nl {pat d : Str} (hnl : '\n' ∉ pat) :
    pat <+: d ++ ['\n'] ↔ pat <+: d := by
  constructor
  · intro h
    rcases lt_or_le pat.length (d ++ ['\n']).length with hlt | hge
    · have hle : pat.length ≤ d.length := by
        rw [List.length_append, List.length_singleton] at hlt
        omega
      exact List.prefix_of_prefix_length_le h (List.prefix_append d ['\n']) hle
    · exfalso
      have heq : pat = d ++ ['\n'] :=
        h.eq_of_length (Nat.le_antisymm h.length_le hge)
      exact hnl (heq ▸ List.mem_append_right d (List.mem_singleton_self _))
  · intro h
    exact h.trans (List.prefix_append d ['\n'])

theorem countOcc_snoc_nl {pat : Str} (hp : pat ≠ []) (hnl : '\n' ∉ pat) :
    ∀ d : Str, countOcc pat (d ++ ['\n']) = countOcc pat d
  | [] => by
    have h1 : ¬ pat.isPrefixOf ['\n'] := by
      intro hb
      have h := List.isPrefixOf_iff_prefix.mp hb
      rcases Nat.eq_zero_or_pos pat.length with h0 | h0
      · exact hp (List.eq_nil_of_length_eq_zero h0)
      · have : pat = ['\n'] := h.eq_of_length (Nat.le_antisymm h.length_le h0)
        exact hnl (this ▸ List.mem_singleton_self _)
    show (if pat.isPrefixOf ['\n'] then 1 else 0) + countOcc pat [] = countOcc pat []
    rw [if_neg h1, countOcc_nil hp]
  | c :: d => by
    have hind : pat.isPrefixOf ((c :: d) ++ ['\n']) = pat.isPrefixOf (c :: d) :=
      isPrefixOf_congr (@prefix_of_snoc_nl pat (c :: d) hnl)
    calc countOcc pat ((c :: d) ++ ['\n'])
        = (if pat.isPrefixOf ((c :: d) ++ ['\n']) then 1 else 0) +
            countOcc pat (d ++ ['\n']) := rfl
      _ = (if pat.isPrefixOf (c :: d) then 1 else 0) + countOcc pat d := by
          rw [hind, countOcc_snoc_nl hp hnl d]
      _ = countOcc pat (c :: d) := rfl

theorem countOcc_append_of_nl_suffix {pat : Str} (hp : pat ≠ []) (hnl : '\n' ∉ pat) :
    ∀ {a : Str}, ['\n'] <:+ a → ∀ b : Str,
      countOcc pat (a ++ b) = countOcc pat a + countOcc pat b
  | [], ha, _ => by simp at ha
  | c :: a, ha, b => by
    rcases List.suffix_cons_iff.mp ha with h | h
    · obtain ⟨rfl, rfl⟩ : c = '\n' ∧ a = [] := by
        cases h; exact ⟨rfl, rfl⟩
      have hnp : ∀ t : Str, ¬ pat.isPrefixOf ('\n' :: t) := by
        intro t hb
        have h := List.isPrefixOf_iff_prefix.mp hb
        cases pat with
        | nil => exact hp rfl
        | cons p pt =>
          have : p = '\n' := (List.cons_prefix_cons.mp h).1
          exact hnl (this ▸ List.mem_cons_self p pt)
      show (if pat.isPrefixOf ('\n' :: b) then 1 else 0) + countOcc pat b =
        countOcc pat ['\n'] + countOcc pat b
      rw [if_neg (hnp b)]
      have : countOcc pat ['\n'] = 0 := by
        show (if pat.isPrefixOf ('\n' :: []) then 1 else 0) + countOcc pat [] = 0
        rw [if_neg (hnp []), countOcc_nil hp]
      rw [this]
    · have ih := countOcc_append_of_nl_suffix hp hnl h b
      have hind : pat.isPrefixOf ((c :: a) ++ b) = pat.isPrefixOf (c :: a) :=
        isPrefixOf_congr (@prefix_of_append_nl pat (c :: a) b hnl
          (List.suffix_cons_iff.mpr (Or.inr h)))
      calc countOcc pat ((c :: a) ++ b)
          = (if pat.isPrefixOf ((c :: a) ++ b) then 1 else 0) + countOcc pat (a ++ b) := rfl
        _ = (if pat.isPrefixOf (c :: a) then 1 else 0) +
              (countOcc pat a + countOcc pat b) := by rw [hind, ih]
        _ = countOcc pat (c :: a) + countOcc pat b := by
            show _ = (if pat.isPrefixOf (c :: a) then 1 else 0) + countOcc pat a +
              countOcc pat b
            omega

theorem countOcc_head_not_mem {h : Char} {t : Str} {x : Str}
    (hx : h ∉ x) (y : Str) :
    countOcc (h :: t) (x ++ y) = countOcc (h :: t) y := by
  induction x with
  | nil => rfl
  | cons c x ih =>
    have hcx : h ≠ c ∧ h ∉ x := by
      constructor
      · intro hh; exact hx (hh ▸ List.mem_cons_self c x)
      · intro hh; exact hx (List.mem_cons_of_mem c hh)
    have hnp : ¬ (h :: t).isPrefixOf ((c :: x) ++ y) := by
      intro hb
      have hpref := List.isPrefixOf_iff_prefix.mp hb
      exact hcx.1 (List.cons_prefix_cons.mp (by simpa using hpref)).1
    show (if (h :: t).isPrefixOf ((c :: x) ++ y) then 1 else 0) +
      countOcc (h :: t) (x ++ y) = countOcc (h :: t) y
    rw [if_neg hnp, ih hcx.2, Nat.zero_add]

theorem countOcc_flatMap_lineTerm {pat : Str} (hp : pat ≠ []) (hnl : '\n' ∉ pat) :
    ∀ ls : List Str,
      countOcc pat (ls.flatMap fun l => l ++ ['\n']) = (ls.map (countOcc pat)).sum
  | [] => by simp [countOcc_nil hp]
  | x :: ls => by
    rw [List.flatMap_cons,
      countOcc_append_of_nl_suffix hp hnl (List.suffix_append x ['\n']) _,
      countOcc_snoc_nl hp hnl x, countOcc_flatMap_lineTerm hp hnl ls]
    simp

theorem splitOnce_exact {pat : Str} (hp : pat ≠ []) (hnl : '\n' ∉ pat) :
    ∀ {a : Str}, (a = [] ∨ ['\n'] <:+ a) → pyIn pat a = false → ∀ b : Str,
      splitOnce pat (a ++ (pat ++ b)) = some (a, b)
  | [], _, _, b => by
    obtain ⟨p, pt, hpat⟩ : ∃ p pt, pat = p :: pt := by
      cases pat with
      | nil => exact absurd rfl hp
      | cons p pt => exact ⟨p, pt, rfl⟩
    have hpref : pat.isPrefixOf (p :: (pt ++ b)) :=
      List.isPrefixOf_iff_prefix.mpr
        (by rw [hpat]; exact (List.prefix_append (p :: pt) b))
    show splitOnce pat (pat ++ b) = some ([], b)
    conv in pat ++ b => rw [hpat]
    show splitOnce pat (p :: (pt ++ b)) = some ([], b)
    rw [splitOnce, if_pos hpref]
    have : (p :: (pt ++ b)).drop pat.length = b := by
      rw [show p :: (pt ++ b) = (p :: pt) ++ b from rfl, hpat, List.drop_left]
    rw [this]
  | c :: a, ha, hin, b => by
    have hsuf : ['\n'] <:+ c :: a := by
      rcases ha with h | h
      · exact absurd h (by simp)
      · exact h
    have hnp : ¬ pat.isPrefixOf (c :: (a ++ (pat ++ b))) = true := by
      intro hb
      have hpref : pat <+: (c :: a) ++ (pat ++ b) := by
        rw [List.cons_append]
        exact List.isPrefixOf_iff_prefix.mp hb
      have hca : pat <+: c :: a := (prefix_of_append_nl (pat ++ b) hnl hsuf).mp hpref
      rw [pyIn_of_pref hca] at hin
      exact Bool.noConfusion hin
    have ha' : a = [] ∨ ['\n'] <:+ a := by
      rcases List.suffix_cons_iff.mp hsuf with h | h
      · left; cases h; rfl
      · right; exact h
    have hin' : pyIn pat a = false := pyIn_cons_false hin
    have ih := splitOnce_exact hp hnl ha' hin' b
    show splitOnce pat (c :: (a ++ (pat ++ b))) = some (c :: a, b)
    rw [splitOnce, if_neg hnp, ih]

/-! ## Theorems: structure of the block written by apply_block -/

theorem joinNL_lineTerm (x : Str) : ∀ ls : List Str,
    joinNL (x :: ls) ++ ['\n'] = (x :: ls).flatMap (fun l => l ++ ['\n'])
  | [] => by simp [joinNL]
  | y :: ls => by
    show (x ++ '\n' :: joinNL (y :: ls)) ++ ['\n'] = _
    rw [List.flatMap_cons, ← joinNL_lineTerm y ls]
    simp

theorem blockLines_cons (domains : List Str) :
    blockLines domains = BLOCK_START ::
      ([comment1, comment2] ++
        ((_expand_domains domains).flatMap fun d =>
          [str "127.0.0.1 " ++ d, str "::1 " ++ d]) ++ [BLOCK_END]) := by
  simp [blockLines]

theorem blockFor_flatMap (domains : List Str) :
    blockFor domains = (blockLines domains).flatMap fun l => l ++ ['\n'] := by
  rw [blockFor, blockLines_cons, joinNL_lineTerm, ← blockLines_cons]

theorem blockFor_decomp (domains : List Str) :
    blockFor domains = BLOCK_START ++ (midFor domains ++ (BLOCK_END ++ ['\n'])) := by
  rw [blockFor_flatMap, blockLines_cons, midFor, midLines]
  simp [List.flatMap_cons, List.flatMap_append, List.append_assoc]

theorem nl_suffix_lineTerm_flatMap : ∀ {ls : List Str}, ls ≠ [] →
    ['\n'] <:+ ls.flatMap (fun l => l ++ ['\n'])
  | [], h => absurd rfl h
  | [x], _ => by
    rw [List.flatMap_cons, List.flatMap_nil, List.append_nil]
    exact List.suffix_append x ['\n']
  | x :: y :: ls, _ => by
    rw [List.flatMap_cons]
    exact (@nl_suffix_lineTerm_flatMap (y :: ls) (by simp)).trans
      (List.suffix_append _ _)

theorem nl_suffix_midFor (domains : List Str) : ['\n'] <:+ midFor domains :=
  nl_suffix_lineTerm_flatMap (by simp [midLines])

theorem bS_ne_nil : BLOCK_START ≠ [] := by decide

theorem bS_no_nl : '\n' ∉ BLOCK_START := by decide

theorem bE_ne_nil : BLOCK_END ≠ [] := by decide

theorem bE_no_nl : '\n' ∉ BLOCK_END := by decide

theorem hash_START : ∃ t, BLOCK_START = '#' :: t :=
  ⟨str " AdultBlocker START", by decide⟩

theorem hash_END : ∃ t, BLOCK_END = '#' :: t :=
  ⟨str " AdultBlocker END", by decide⟩

theorem countOcc_prefix_line {pat : Str} (p d : Str)
    (hhash : ∃ t, pat = '#' :: t) (hp : '#' ∉ p) (hd : pyIn pat d = false) :
    countOcc pat (p ++ d) = 0 := by
  obtain ⟨t, rfl⟩ := hhash
  rw [countOcc_head_not_mem hp d]
  exact pyIn_false_iff.mp hd

theorem sum_countOcc_addr {pat : Str} (hhash : ∃ t, pat = '#' :: t) :
    ∀ {l : List Str}, (∀ d ∈ l, pyIn pat d = false) →
      (((l.flatMap fun d => [str "127.0.0.1 " ++ d, str "::1 " ++ d]).map
        (countOcc pat)).sum = 0)
  | [], _ => rfl
  | d :: l, h => by
    rw [List.flatMap_cons, List.map_append, List.sum_append,
      sum_countOcc_addr hhash (fun x hx => h x (List.mem_cons_of_mem d hx))]
    have hd := h d (List.mem_cons_self d l)
    have e1 : countOcc pat (str "127.0.0.1 " ++ d) = 0 :=
      countOcc_prefix_line _ _ hhash (by decide) hd
    have e2 : countOcc pat (str "::1 " ++ d) = 0 :=
      countOcc_prefix_line _ _ hhash (by decide) hd
    simp [e1, e2]

theorem countOcc_midFor {pat : Str} (hp : pat ≠ []) (hnl : '\n' ∉ pat)
    (hhash : ∃ t, pat = '#' :: t)
    (hc1 : countOcc pat comment1 = 0) (hc2 : countOcc pat comment2 = 0)
    (domains : List Str)
    (hd : ∀ d ∈ _expand_domains domains, pyIn pat d = false) :
    countOcc pat (midFor domains) = 0 := by
  rw [midFor, countOcc_flatMap_lineTerm hp hnl, midLines, List.map_append,
    List.sum_append, sum_countOcc_addr hhash hd]
  simp [countOcc_nil hp, hc1, hc2]

theorem countOcc_blockFor {pat : Str} (hp : pat ≠ []) (hnl : '\n' ∉ pat)
    (hhash : ∃ t, pat = '#' :: t)
    (hc1 : countOcc pat comment1 = 0) (hc2 : countOcc pat comment2 = 0)
    (domains : List Str)
    (hd : ∀ d ∈ _expand_domains domains, pyIn pat d = false) :
    countOcc pat (blockFor domains) =
      countOcc pat BLOCK_START + countOcc pat BLOCK_END := by
  rw [blockFor_flatMap, countOcc_flatMap_lineTerm hp hnl, blockLines,
    List.map_append, List.sum_append, List.map_append, List.sum_append,
    sum_countOcc_addr hhash hd]
  simp [hc1, hc2]

theorem ensureNL_cases (c : Str) : ensureNL c = [] ∨ ['\n'] <:+ ensureNL c := by
  rw [ensureNL]
  split
  · right; exact List.suffix_append c ['\n']
  · rename_i h
    by_cases hc : c.isEmpty
    · left; exact List.isEmpty_iff.mp hc
    · right
      have hs : ['\n'].isSuffixOf c = true := by
        cases hb : ['\n'].isSuffixOf c with
        | true => rfl
        | false => exact absurd (by simp [hc, hb]) h
      exact List.isSuffixOf_iff_suffix.mp hs

theorem pyIn_ensureNL {pat : Str} (hp : pat ≠ []) (hnl : '\n' ∉ pat) {c : Str}
    (h : pyIn pat c = false) : pyIn pat (ensureNL c) = false := by
  rw [ensureNL]
  split
  · rw [pyIn_false_iff, countOcc_snoc_nl hp hnl, ← pyIn_false_iff]
    exact h
  · exact h

theorem ensureNL_of_nl_suffix {x : Str} (h : ['\n'] <:+ x) : ensureNL x = x := by
  have hs : ['\n'].isSuffixOf x = true := List.isSuffixOf_iff_suffix.mpr h
  rw [ensureNL, if_neg (by simp [hs])]

theorem spliceMarkers_no_marker {c : Str} (hS : pyIn BLOCK_START c = false) :
    spliceMarkers c = some c := by
  rw [spliceMarkers, if_neg (by simp [hS])]

theorem apply_block_fresh (domains : List Str) {c : Str}
    (hS : pyIn BLOCK_START c = false) :
    apply_block domains c = some (ensureNL c ++ blockFor domains) := by
  rw [apply_block, spliceMarkers_no_marker hS]
  rfl

theorem spliceMarkers_applied (domains : List Str) {c : Str}
    (hS : pyIn BLOCK_START c = false) (hE : pyIn BLOCK_END c = false)
    (hd : ∀ d ∈ _expand_domains domains,
      pyIn BLOCK_START d = false ∧ pyIn BLOCK_END d = false) :
    spliceMarkers (ensureNL c ++ blockFor domains) = some (ensureNL c ++ ['\n']) := by
  have haS : pyIn BLOCK_START (ensureNL c) = false := pyIn_ensureNL bS_ne_nil bS_no_nl hS
  have haE : pyIn BLOCK_END (ensureNL c) = false := pyIn_ensureNL bE_ne_nil bE_no_nl hE
  have hanl := ensureNL_cases c
  have hmE : pyIn BLOCK_END (midFor domains) = false := by
    rw [pyIn_false_iff]
    exact countOcc_midFor bE_ne_nil bE_no_nl hash_END (by decide) (by decide)
      domains (fun d h => (hd d h).2)
  have h1 : splitOnce BLOCK_START (ensureNL c ++ blockFor domains)
      = some (ensureNL c, midFor domains ++ (BLOCK_END ++ ['\n'])) := by
    rw [blockFor_decomp]
    exact splitOnce_exact bS_ne_nil bS_no_nl hanl haS _
  have h2 : splitOnce BLOCK_END (midFor domains ++ (BLOCK_END ++ ['\n']))
      = some (midFor domains, ['\n']) :=
    splitOnce_exact bE_ne_nil bE_no_nl (Or.inr (nl_suffix_midFor domains)) hmE ['\n']
  have hg1 : pyIn BLOCK_START (ensureNL c ++ blockFor domains) = true := by
    rw [pyIn, h1]; rfl
  have hg2 : pyIn BLOCK_END (ensureNL c ++ blockFor domains) = true := by
    apply pyIn_append_left
    rw [blockFor_decomp]
    apply pyIn_append_left
    apply pyIn_append_left
    exact pyIn_of_pref (List.prefix_append BLOCK_END ['\n'])
  rw [spliceMarkers, if_pos (by rw [hg1, hg2]; rfl)]
  simp only [h1, h2]

theorem apply_block_applied (domains : List Str) {c : Str}
    (hS : pyIn BLOCK_START c = false) (hE : pyIn BLOCK_END c = false)
    (hd : ∀ d ∈ _expand_domains domains,
      pyIn BLOCK_START d = false ∧ pyIn BLOCK_END d = false) :
    apply_block domains (ensureNL c ++ blockFor domains)
      = some ((ensureNL c ++ ['\n']) ++ blockFor domains) := by
  rw [apply_block, spliceMarkers_applied domains hS hE hd]
  show some (ensureNL (ensureNL c ++ ['\n']) ++ blockFor domains) = _
  rw [ensureNL_of_nl_suffix (List.suffix_append (ensureNL c) ['\n'])]

theorem countOcc_applied_twice {pat : Str} (hp : pat ≠ []) (hnl : '\n' ∉ pat)
    {c : Str} (hc : pyIn pat (ensureNL c) = false) (domains : List Str)
    (hB : countOcc pat (blockFor domains) = 1) :
    countOcc pat ((ensureNL c ++ ['\n']) ++ blockFor domains) = 1 := by
  rw [countOcc_append_of_nl_suffix hp hnl
      (List.suffix_append (ensureNL c) ['\n']) _,
    countOcc_snoc_nl hp hnl, pyIn_false_iff.mp hc, hB]

/-! ## Theorems: apply_block and remove_block -/

set_option maxRecDepth 8000 in
/-- C1 counterexample: `apply_block` is not byte-level idempotent — on an
initially empty hosts file, the second application prepends an extra
newline to the result of the first (the splice keeps the newline that
followed the end marker), so the two contents differ. -/
theorem apply_block_not_byte_idempotent :
    apply_block [] [] = some (blockFor []) ∧
    apply_block [] (blockFor []) = some ('\n' :: blockFor []) ∧
    '\n' :: blockFor [] ≠ blockFor [] := by
  refine ⟨by decide, by decide, by decide⟩

/-- C1 amended: for marker-free initial content and domains whose expanded
entries contain no marker, a first `apply_block` appends exactly one fresh
block (after ensuring the prior content ends in a newline), and a second
`apply_block` yields the same content except for one extra newline inserted
before the block — both markers still occur exactly once with exactly the
expanded domain set between them, but the result is not byte-identical to
the single application. -/
theorem apply_block_idempotent_mod_newline (domains : List Str) (c : Str)
    (hS : pyIn BLOCK_START c = false) (hE : pyIn BLOCK_END c = false)
    (hd : ∀ d ∈ _expand_domains domains,
      pyIn BLOCK_START d = false ∧ pyIn BLOCK_END d = false) :
    apply_block domains c = some (ensureNL c ++ blockFor domains) ∧
    apply_block domains (ensureNL c ++ blockFor domains)
      = some (ensureNL c ++ '\n' :: blockFor domains) ∧
    countOcc BLOCK_START (ensureNL c ++ '\n' :: blockFor domains) = 1 ∧
    countOcc BLOCK_END (ensureNL c ++ '\n' :: blockFor domains) = 1 := by
  have hassoc : (ensureNL c ++ ['\n']) ++ blockFor domains
      = ensureNL c ++ '\n' :: blockFor domains := by
    rw [List.append_assoc]; rfl
  have hBS : countOcc BLOCK_START (blockFor domains) = 1 := by
    rw [countOcc_blockFor bS_ne_nil bS_no_nl hash_START (by decide) (by decide)
      domains (fun d h => (hd d h).1)]
    decide
  have hBE : countOcc BLOCK_END (blockFor domains) = 1 := by
    rw [countOcc_blockFor bE_ne_nil bE_no_nl hash_END (by decide) (by decide)
      domains (fun d h => (hd d h).2)]
    decide
  refine ⟨apply_block_fresh domains hS, ?_, ?_, ?_⟩
  · rw [apply_block_applied domains hS hE hd, hassoc]
  · rw [← hassoc]
    exact countOcc_applied_twice bS_ne_nil bS_no_nl
      (pyIn_ensureNL bS_ne_nil bS_no_nl hS) domains hBS
  · rw [← hassoc]
    exact countOcc_applied_twice bE_ne_nil bE_no_nl
      (pyIn_ensureNL bE_ne_nil bE_no_nl hE) domains hBE

/-- C1 witness: the amended theorem at the empty hosts file with an empty
domain list. -/
theorem apply_block_idempotent_mod_newline_witness :
    apply_block [] [] = some (ensureNL [] ++ blockFor []) ∧
    apply_block [] (ensureNL [] ++ blockFor [])
      = some (ensureNL [] ++ '\n' :: blockFor []) ∧
    countOcc BLOCK_START (ensureNL [] ++ '\n' :: blockFor []) = 1 ∧
    countOcc BLOCK_END (ensureNL [] ++ '\n' :: blockFor []) = 1 :=
  apply_block_idempotent_mod_newline [] [] (by decide) (by decide)
    (by intro d h; exact absurd h (List.not_mem_nil d))

set_option maxRecDepth 8000 in
/-- C2 counterexample: `apply_block` followed by `remove_block` on an
initially empty hosts file leaves a single newline, not the empty file the
claim requires. -/
theorem apply_remove_leaves_newline :
    apply_block [] [] = some (blockFor []) ∧
    remove_block (blockFor []) = some ['\n'] ∧
    (['\n'] : Str) ≠ [] := by
  refine ⟨by decide, by decide, by decide⟩

/-- C2 amended: for marker-free initial content and domains whose expanded
entries contain no marker, `apply_block` followed by `remove_block`
preserves the original content byte-for-byte as a prefix but appends a
trailing newline (two when the original content did not end in one): the
result is `ensureNL c ++ "\n"`, so an initially empty file ends up holding
one newline rather than being restored to empty. -/
theorem apply_then_remove_appends_newline (domains : List Str) (c : Str)
    (hS : pyIn BLOCK_START c = false) (hE : pyIn BLOCK_END c = false)
    (hd : ∀ d ∈ _expand_domains domains,
      pyIn BLOCK_START d = false ∧ pyIn BLOCK_END d = false) :
    apply_block domains c = some (ensureNL c ++ blockFor domains) ∧
    remove_block (ensureNL c ++ blockFor domains) = some (ensureNL c ++ ['\n']) := by
  exact ⟨apply_block_fresh domains hS,
    spliceMarkers_applied domains hS hE hd⟩

/-- C2 witness: the amended theorem on a one-character hosts file. -/
theorem apply_then_remove_appends_newline_witness :
    apply_block [] (str "x") = some (ensureNL (str "x") ++ blockFor []) ∧
    remove_block (ensureNL (str "x") ++ blockFor [])
      = some (ensureNL (str "x") ++ ['\n']) :=
  apply_then_remove_appends_newline [] (str "x") (by decide) (by decide)
    (by intro d h; exact absurd h (List.not_mem_nil d))

set_option maxRecDepth 8000 in
/-- C3 witness: on a freshly written block for a concrete domain list,
`is_block_active` reports the block active. -/
theorem is_block_active_characterization_witness :
    is_block_active [str "a.com"] (blockFor [str "a.com"]) = true := by
  have h := is_block_active_characterization [str "a.com"] (blockFor [str "a.com"])
  exact (h.2 (by decide) (by decide)).mpr (by decide)

/-- C10 witness: with a whitespace-only domain list, `is_block_active` on a
content holding both markers (in any arrangement) equals the bare marker
presence test. -/
theorem is_block_active_vacuous_on_empty_expansion_witness :
    is_block_active [str "   "] (str "# AdultBlocker END# AdultBlocker START") =
      (pyIn BLOCK_START (str "# AdultBlocker END# AdultBlocker START") &&
        pyIn BLOCK_END (str "# AdultBlocker END# AdultBlocker START")) :=
  is_block_active_vacuous_on_empty_expansion [str "   "]
    (str "# AdultBlocker END# AdultBlocker START") (by decide)

end AdultBlocker
